import Mathlib

/-!
Verification of the matching and estimation engine of the
`Local_data_search_system_with_AI_in_chat` repository.

Text values are embedded as lists of characters (`Str`).  The Python
runtime primitives that the source relies on (Unicode lowercasing
`str.lower`, the regex word-character class `\w` and the whitespace class
`\s` / `str.isspace`) are kept as explicit function parameters `low`,
`isW`, `isSp`; theorems that need facts about them (e.g. that
lowercasing is idempotent) take those facts as hypotheses.  Database
retrieval (`app/repositories/items.py`) is external I/O and is embedded
as `Except`-valued function parameters, so a raised exception is an
`Except.error` that propagates exactly as a Python exception does
through `await`.
-/

set_option linter.unusedVariables false

/-- Character lists stand in for Python strings. -/
abbrev Str := List Char

/-- Convenience: the character list of a string literal. -/
def strOf (s : String) : Str := s.data

/-! ## `app/utils/normalization.py` -/

/-- Model of Python `text.strip()`: drop leading and trailing whitespace
characters (whitespace test `isSp`). -/
def stripList (isSp : Char → Bool) (l : Str) : Str :=
  ((l.dropWhile isSp).reverse.dropWhile isSp).reverse

/-- State machine for `re.sub(r"[^\w\s]+", " ", text)`: the flag records
whether the scan is currently inside a run of characters that are
neither word characters (`isW`) nor whitespace (`isSp`); the first
character of such a run emits the single replacement space. -/
def squashAux (isW isSp : Char → Bool) : Bool → Str → Str
  | _, [] => []
  | inBad, c :: rest =>
    if isW c || isSp c then c :: squashAux isW isSp false rest
    else if inBad then squashAux isW isSp true rest
    else ' ' :: squashAux isW isSp true rest

/-- Model of `re.sub(r"[^\w\s]+", " ", text)`: every maximal run of
characters that are neither word characters nor whitespace is replaced
by a single space. -/
def squashNonWord (isW isSp : Char → Bool) (l : Str) : Str :=
  squashAux isW isSp false l

/-- State machine for `re.sub(r"\s+", " ", text)`: the flag records
whether the scan is currently inside a whitespace run; the first
character of such a run emits the single replacement space. -/
def collapseAux (isSp : Char → Bool) : Bool → Str → Str
  | _, [] => []
  | inSp, c :: rest =>
    if isSp c then
      if inSp then collapseAux isSp true rest
      else ' ' :: collapseAux isSp true rest
    else c :: collapseAux isSp false rest

/-- Model of `re.sub(r"\s+", " ", text)`: every maximal run of whitespace
characters is replaced by a single space. -/
def collapseWS (isSp : Char → Bool) (l : Str) : Str :=
  collapseAux isSp false l

/-- Folding of the letter `ё` to `е` (`text.replace("ё", "е")`). -/
def yoFold (c : Char) : Char := if c = 'ё' then 'е' else c

/-- Model of `normalize_text` from `app/utils/normalization.py`:
strip, lowercase, fold `ё` to `е`, replace runs of non-word non-space
characters by a single space, collapse whitespace runs, strip again. -/
def normalize_text (low : Char → Char) (isW isSp : Char → Bool) (s : Str) : Str :=
  stripList isSp
    (collapseWS isSp
      (squashNonWord isW isSp
        (((stripList isSp s).map low).map yoFold)))

/-! ### Idempotence of normalization (claim C7) -/

/-- A character as it can appear in the output of `normalize_text`:
whitespace characters are exactly the plain space, other characters are
word characters; every character is a fixed point of lowercasing and is
not `ё`. -/
def goodChar (low : Char → Char) (isW isSp : Char → Bool) (c : Char) : Prop :=
  (if isSp c then c = ' ' else isW c = true) ∧ low c = c ∧ c ≠ 'ё'

/-- Shape of a `normalize_text` output: good characters, no two adjacent
whitespace characters, no whitespace at either end. -/
def goodStr (low : Char → Char) (isW isSp : Char → Bool) (l : Str) : Prop :=
  (∀ c ∈ l, goodChar low isW isSp c) ∧
  l.Chain' (fun a b => ¬(isSp a = true ∧ isSp b = true)) ∧
  (∀ c, l.head? = some c → isSp c = false) ∧
  (∀ c, l.getLast? = some c → isSp c = false)

/-! ## `app/services/matching.py` — synonym expansion -/

/-- Model of Python `s.replace(old, new)` for a non-empty pattern: scan
left to right, replacing every non-overlapping occurrence of `pat`.
An empty `pat` never matches here (callers only pass non-empty tokens). -/
def replaceAllGo (pat rep : Str) : Nat → Str → Str
  | 0, s => s
  | fuel + 1, s =>
    match s with
    | [] => []
    | c :: rest =>
      if pat ≠ [] ∧ pat.isPrefixOf (c :: rest) then
        rep ++ replaceAllGo pat rep fuel ((c :: rest).drop pat.length)
      else
        c :: replaceAllGo pat rep fuel rest

/-- Model of Python `s.replace(old, new)`, entry point: the fuel
`s.length` dominates the number of scan steps, so it never runs out on a
non-empty pattern. -/
def replaceAll (pat rep s : Str) : Str := replaceAllGo pat rep s.length s

/-- Model of Python `s.split()`: split on whitespace runs, dropping
empty fields (accumulator variant). -/
def splitWSAux (isSp : Char → Bool) : Str → Str → List Str
  | [], cur => if cur = [] then [] else [cur.reverse]
  | c :: rest, cur =>
    if isSp c then
      if cur = [] then splitWSAux isSp rest []
      else cur.reverse :: splitWSAux isSp rest []
    else splitWSAux isSp rest (c :: cur)

/-- Model of Python `s.split()`. -/
def splitWS (isSp : Char → Bool) (s : Str) : List Str := splitWSAux isSp s []

/-- The `SYNONYMS_DICT` literal of `app/services/matching.py`. -/
def SYNONYMS_DICT : List (Str × List Str) := [
  (strOf "кот", [strOf "котенок", strOf "котик", strOf "котёнок"]),
  (strOf "шкаф", [strOf "шкафчик", strOf "шкафу"]),
  (strOf "щит", [strOf "щиток", strOf "щитовая"]),
  (strOf "управление", [strOf "управляющий", strOf "управляющая"]),
  (strOf "насос", [strOf "насосный", strOf "насосная"])
]

/-- Association-list lookup, modelling `token in SYNONYMS_DICT` plus
`SYNONYMS_DICT[token]`. -/
def lookupSyn : List (Str × List Str) → Str → Option (List Str)
  | [], _ => none
  | (k, v) :: rest, t => if k = t then some v else lookupSyn rest t

/-- Model of `_expand_query_with_synonyms`: start from the query itself;
for each whitespace token that is a dictionary key and each of its
synonyms, append `query_norm.replace(token, synonym)` unless already
present. -/
def _expand_query_with_synonyms (isSp : Char → Bool) (query_norm : Str) : List Str :=
  (splitWS isSp query_norm).foldl
    (fun queries token =>
      match lookupSyn SYNONYMS_DICT token with
      | none => queries
      | some syns =>
        syns.foldl
          (fun qs syn =>
            let expanded := replaceAll token syn query_norm
            if expanded ∈ qs then qs else qs ++ [expanded])
          queries)
    [query_norm]

/-- Joining tokens with single spaces (used only to state the spec's
single-substitution property). -/
def joinTokens (ts : List Str) : Str := List.intercalate [' '] ts

/-- Modelled from the spec (§4.2): `v` arises from `q` by replacing
exactly one whitespace-delimited token of `q` that is a key of the
synonym mapping with one of its synonyms, leaving every other token
unchanged.  This is the spec's description of a variant, stated as a
decidable check; it is compared against `_expand_query_with_synonyms`,
which is translated from the source. -/
def specSingleSubstB (isSp : Char → Bool) (q v : Str) : Bool :=
  let ts := splitWS isSp q
  (List.range ts.length).any (fun i =>
    match lookupSyn SYNONYMS_DICT (ts.getD i []) with
    | some syns => syns.any (fun syn => v == joinTokens (ts.set i syn))
    | none => false)

/-! ## Catalog rows and the ranker (`app/services/matching.py`) -/

/-- A catalog row as returned by the retrieval layer
(`app/repositories/items.py`, `BASE_SELECT`): the fields the engine
reads.  `article` is `none` when the database value is NULL. -/
structure Row where
  name : Str
  name_norm : Str
  article : Option Str
  cabinet_code : Str
  project_code : Str
  type_name : Str
  stage_name : Str
  assembly_time_minutes : Int
deriving DecidableEq

/-- The five rapidfuzz string-similarity metrics consumed by
`_calculate_similarity_score` (`fuzz.ratio`, `fuzz.partial_ratio`,
`fuzz.token_sort_ratio`, `fuzz.token_set_ratio`, `fuzz.WRatio`).  The
rapidfuzz library is external native code, so it is embedded as an
abstract family of integer-valued similarity functions. -/
structure Metrics where
  ratio : Str → Str → Nat
  partRatio : Str → Str → Nat
  tokenSortRatio : Str → Str → Nat
  tokenSetRatio : Str → Str → Nat
  wratio : Str → Str → Nat

/-- Model of `_calculate_similarity_score`: maximum of the five metrics,
plus a coverage bonus (when at least 80% of the deduplicated query
tokens occur among the candidate tokens) and a per-pair prefix bonus
capped at 10, the sum capped at 100.  Python's float coverage test
`coverage >= 0.8` and `int(coverage * 10)` are rendered in exact integer
arithmetic. -/
def _calculate_similarity_score (m : Metrics) (isSp : Char → Bool)
    (query_norm name_norm : Str) : Nat :=
  let query_tokens := (splitWS isSp query_norm).dedup
  let name_tokens := (splitWS isSp name_norm).dedup
  let base_score :=
    max (m.ratio query_norm name_norm)
      (max (m.partRatio query_norm name_norm)
        (max (m.tokenSortRatio query_norm name_norm)
          (max (m.tokenSetRatio query_norm name_norm)
            (m.wratio query_norm name_norm))))
  let inter := (query_tokens.filter (fun t => t ∈ name_tokens)).length
  let coverage_bonus :=
    if query_tokens ≠ [] ∧ name_tokens ≠ [] ∧ 4 * query_tokens.length ≤ 5 * inter
    then (10 * inter) / query_tokens.length else 0
  let pairBonus := fun (q n : Str) =>
    if 3 ≤ q.length ∧ q.isPrefixOf n then 5
    else if 3 ≤ n.length ∧ n.isPrefixOf q then 5
    else 0
  let pfxBonus :=
    if query_tokens ≠ [] ∧ name_tokens ≠ [] then
      (query_tokens.map
        (fun q => (name_tokens.map (fun n => pairBonus q n)).foldl (· + ·) 0)).foldl
        (· + ·) 0
    else 0
  min 100 (base_score + coverage_bonus + min pfxBonus 10)

/-- Comparator of `scored.sort(key=lambda x: x[0], reverse=True)`:
descending by score. -/
def scoreGE (a b : Nat × Row) : Prop := b.1 ≤ a.1

instance : DecidableRel scoreGE := fun a b => Nat.decLe _ _

instance : IsTotal (Nat × Row) scoreGE := ⟨fun a b => Nat.le_total b.1 a.1⟩

instance : IsTrans (Nat × Row) scoreGE := ⟨fun _ _ _ h1 h2 => Nat.le_trans h2 h1⟩

/-- Model of `rank_candidates`: score every candidate against every
synonym-expanded query variant (keeping the maximum, starting from 0)
and stable-sort descending by score.  Insertion sort is stable, like
Python `list.sort`. -/
def rank_candidates (m : Metrics) (isSp : Char → Bool) (query_norm : Str)
    (candidates : List Row) : List (Nat × Row) :=
  let expanded_queries := _expand_query_with_synonyms isSp query_norm
  let scored := candidates.map (fun c =>
    ((expanded_queries.map
        (fun v => _calculate_similarity_score m isSp v c.name_norm)).foldl max 0, c))
  List.insertionSort scoreGE scored

/-- The scan loop of `pick_best_matches`: stop at the first score below
`minScore`, and stop after appending once `maxResults` results have been
collected (`k` counts results already collected). -/
def pickLoop (minScore maxResults : Nat) : List (Nat × Row) → Nat → List (Nat × Row)
  | [], _ => []
  | (s, c) :: rest, k =>
    if s < minScore then []
    else if maxResults ≤ k + 1 then [(s, c)]
    else (s, c) :: pickLoop minScore maxResults rest (k + 1)

/-- Model of `pick_best_matches(query_norm, candidates, max_results)`:
rank, then collect top results scoring at least
`settings.fuzzy_min_score` (passed explicitly here).  Each pair keeps
the score Python stores under the `match_score` key of the copied
candidate dict. -/
def pick_best_matches (m : Metrics) (isSp : Char → Bool) (fuzzy_min_score : Nat)
    (query_norm : Str) (candidates : List Row) (max_results : Nat) :
    List (Nat × Row) :=
  pickLoop fuzzy_min_score max_results (rank_candidates m isSp query_norm candidates) 0

/-- All-zero metrics, used only to instantiate witnesses. -/
def mZero : Metrics :=
  ⟨fun _ _ => 0, fun _ _ => 0, fun _ _ => 0, fun _ _ => 0, fun _ _ => 0⟩

/-! ## `app/services/estimation.py` — the estimation engine -/

/-- Model of the dict built by `_row_to_match`: the engine's per-match
output record. -/
structure MatchResult where
  user_input : Str
  matched_name : Str
  match_score : Nat
  article : Option Str
  cabinet : Str
  project : Str
  nomenclature_type : Str
  stage : Str
  time_per_unit : Int
deriving DecidableEq

/-- Model of `_row_to_match(user_input, row, score)`. -/
def _row_to_match (user_input : Str) (row : Row) (score : Nat) : MatchResult :=
  { user_input := user_input
    matched_name := row.name
    match_score := score
    article := row.article
    cabinet := row.cabinet_code
    project := row.project_code
    nomenclature_type := row.type_name
    stage := row.stage_name
    time_per_unit := row.assembly_time_minutes }

/-- One entry of `debug["matches"]`: input string, number of exact rows
logged, number of fuzzy matches logged. -/
structure DebugEntry where
  input : Str
  exactCount : Nat
  fuzzyCount : Nat
deriving DecidableEq

/-- The mutable loop state of `estimate`: found items, not-found inputs,
debug log, the per-input seen-article sets and the global claimed-article
set. -/
structure LoopState where
  found_items : List MatchResult
  not_found : List Str
  debugMatches : List DebugEntry
  seen_per_input : List (Str × List Str)
  global_seen_articles : List Str
deriving DecidableEq

/-- The state at loop entry. -/
def initState : LoopState := ⟨[], [], [], [], []⟩

/-- One step of building `exact_by_norm` (a `defaultdict(list)` keyed by
`name_norm`, appending each row to its group). -/
def addToGroup : List (Str × List Row) → Str → Row → List (Str × List Row)
  | [], k, r => [(k, [r])]
  | (k0, g) :: rest, k, r =>
    if k0 = k then (k0, g ++ [r]) :: rest else (k0, g) :: addToGroup rest k r

/-- Building `exact_by_norm` from the fetched exact rows. -/
def buildGroups (rows : List Row) : List (Str × List Row) :=
  rows.foldl (fun acc r => addToGroup acc r.name_norm r) []

/-- Model of `exact_by_norm.get(norm)` (an absent key reads as the empty
group, matching Python falsiness of `None`). -/
def getGroup (groups : List (Str × List Row)) (k : Str) : List Row :=
  match groups.find? (fun p => p.1 == k) with
  | some p => p.2
  | none => []

/-- Python `set.add` on a set represented as a duplicate-free list. -/
def addSet (s : List Str) (a : Str) : List Str := if a ∈ s then s else s ++ [a]

/-- Model of `seen_articles_per_input.setdefault(user_input, set())`. -/
def setdefaultSeen (s : List (Str × List Str)) (k : Str) : List (Str × List Str) :=
  match s.find? (fun p => p.1 == k) with
  | some _ => s
  | none => s ++ [(k, [])]

/-- Adding an article to the per-input seen set of key `k`. -/
def addSeenPI : List (Str × List Str) → Str → Str → List (Str × List Str)
  | [], k, a => [(k, [a])]
  | (k0, g) :: rest, k, a =>
    if k0 = k then (k0, addSet g a) :: rest else (k0, g) :: addSeenPI rest k a

/-- The exact-branch scan of `estimate`: the first row whose article is
truthy (non-NULL and non-empty) and not globally claimed, together with
that article. -/
def acceptFirstExact : List Row → List Str → Option (Row × Str)
  | [], _ => none
  | r :: rest, seen =>
    match r.article with
    | some a => if a ≠ [] ∧ a ∉ seen then some (r, a) else acceptFirstExact rest seen
    | none => acceptFirstExact rest seen

/-- The fuzzy-branch scan of `estimate`: the first ranked match whose
article is truthy and not globally claimed. -/
def acceptFirstFuzzy : List (Nat × Row) → List Str → Option (Nat × Row × Str)
  | [], _ => none
  | (sc, r) :: rest, seen =>
    match r.article with
    | some a => if a ≠ [] ∧ a ∉ seen then some (sc, r, a) else acceptFirstFuzzy rest seen
    | none => acceptFirstFuzzy rest seen

/-- The search-related configuration of `app/core/config.py`. -/
structure Settings where
  use_pg_trgm : Bool
  fuzzy_min_score : Nat
  max_candidates : Nat
  max_results_per_input : Nat

/-- Model of `norm.split(" ")` (single-space separator, keeping empty
fields). -/
def splitChar (sep : Char) : Str → List Str
  | [] => [[]]
  | c :: rest =>
    match splitChar sep rest with
    | [] => [[]]
    | g :: gs => if c = sep then [] :: g :: gs else (c :: g) :: gs

/-- Model of `[token for token in norm.split(" ") if token]`. -/
def tokensOf (norm : Str) : List Str := (splitChar ' ' norm).filter (fun t => t ≠ [])

/-- The engine environment: similarity metrics, configuration, the
character-level primitives of the Python runtime and the external
retrieval capabilities of `app/repositories/items.py`.  Retrieval
returns `Except ε`; an `Except.error` models a raised exception. -/
structure Env (ε : Type) where
  m : Metrics
  st : Settings
  low : Char → Char
  isW : Char → Bool
  isSp : Char → Bool
  fetch_exact_matches : List Str → Option Str → Option Str → Except ε (List Row)
  fetch_candidates_pg_trgm : Str → Nat → Option Str → Option Str → Except ε (List Row)
  fetch_candidates_token : List Str → Nat → Option Str → Option Str → Except ε (List Row)

/-- The candidate-retrieval call of the fuzzy path: pg_trgm or token
fallback, as selected by `settings.use_pg_trgm`. -/
def fuzzyFetchFor {ε : Type} (env : Env ε) (pc cc : Option Str) (norm : Str) :
    Except ε (List Row) :=
  if env.st.use_pg_trgm then
    env.fetch_candidates_pg_trgm norm env.st.max_candidates pc cc
  else
    env.fetch_candidates_token (tokensOf norm) env.st.max_candidates pc cc

/-- The exact branch of the per-input loop body: log the debug entry,
then accept the first unclaimed exact row, if any. -/
def processExactBranch (s : LoopState) (user_input : Str) (exactRows : List Row) :
    LoopState :=
  let s1 := { s with
    debugMatches := s.debugMatches ++ [⟨user_input, exactRows.length, 0⟩] }
  match acceptFirstExact exactRows s1.global_seen_articles with
  | some (r, a) =>
    { s1 with
      global_seen_articles := addSet s1.global_seen_articles a
      seen_per_input := addSeenPI s1.seen_per_input user_input a
      found_items := s1.found_items ++ [_row_to_match user_input r 100] }
  | none => s1

/-- The fuzzy branch of the per-input loop body, applied to the already
ranked-and-thresholded matches `best`: empty means a not-found entry,
otherwise accept the first unclaimed match, if any. -/
def processFuzzyBest (s : LoopState) (user_input : Str) (best : List (Nat × Row)) :
    LoopState :=
  if best = [] then
    { s with
      debugMatches := s.debugMatches ++ [⟨user_input, 0, 0⟩]
      not_found := s.not_found ++ [user_input] }
  else
    let s1 := { s with
      debugMatches := s.debugMatches ++ [⟨user_input, 0, best.length⟩] }
    match acceptFirstFuzzy best s1.global_seen_articles with
    | some (sc, r, a) =>
      { s1 with
        global_seen_articles := addSet s1.global_seen_articles a
        seen_per_input := addSeenPI s1.seen_per_input user_input a
        found_items := s1.found_items ++ [_row_to_match user_input r sc] }
    | none => s1

/-- The body of `estimate`'s per-input loop: update the per-input seen
map, then follow the exact branch when any exact row matches the
normalized input, otherwise fetch fuzzy candidates and follow the fuzzy
branch. -/
def processInput {ε : Type} (env : Env ε) (exactGroups : List (Str × List Row))
    (pc cc : Option Str) (s0 : LoopState) (user_input norm : Str) :
    Except ε LoopState :=
  let s := { s0 with seen_per_input := setdefaultSeen s0.seen_per_input user_input }
  if getGroup exactGroups norm ≠ [] then
    .ok (processExactBranch s user_input (getGroup exactGroups norm))
  else
    (fuzzyFetchFor env pc cc norm).map (fun candidates =>
      processFuzzyBest s user_input
        (pick_best_matches env.m env.isSp env.st.fuzzy_min_score norm candidates
          env.st.max_results_per_input))

/-- The per-input loop of `estimate` over `zip(names, normalized)`. -/
def processAll {ε : Type} (env : Env ε) (exactGroups : List (Str × List Row))
    (pc cc : Option Str) : List (Str × Str) → LoopState → Except ε LoopState
  | [], s => .ok s
  | (ui, n) :: rest, s =>
    (processInput env exactGroups pc cc s ui n).bind
      (fun s2 => processAll env exactGroups pc cc rest s2)

/-- One `total_by_X[key] += value` step of a `defaultdict(int)` with
insertion-ordered keys. -/
def addTotal : List (Str × Int) → Str → Int → List (Str × Int)
  | [], k, v => [(k, v)]
  | (k0, v0) :: rest, k, v =>
    if k0 = k then (k0, v0 + v) :: rest else (k0, v0) :: addTotal rest k v

/-- The totals block at the end of `estimate`: fold every found item's
time into per-cabinet and per-project running totals. -/
def aggregate (found : List MatchResult) :
    List (Str × Int) × List (Str × Int) :=
  (found.foldl (fun acc it => addTotal acc it.cabinet it.time_per_unit) [],
   found.foldl (fun acc it => addTotal acc it.project it.time_per_unit) [])

/-- The tuple returned by `estimate`. -/
structure EstimateOutcome where
  found_items : List MatchResult
  not_found : List Str
  total_by_cabinet : List (Str × Int)
  total_by_project : List (Str × Int)
  debugMatches : List DebugEntry
deriving DecidableEq

/-- Model of `estimate(session, names, project_code, cabinet_code)`:
normalize the inputs, fetch exact rows once, run the per-input loop, and
aggregate the totals. -/
def estimate {ε : Type} (env : Env ε) (names : List Str) (pc cc : Option Str) :
    Except ε EstimateOutcome :=
  let normalized := names.map (normalize_text env.low env.isW env.isSp)
  (env.fetch_exact_matches normalized pc cc).bind (fun exact_rows =>
    (processAll env (buildGroups exact_rows) pc cc (names.zip normalized)
        initState).bind
      (fun fin =>
        let totals := aggregate fin.found_items
        .ok ⟨fin.found_items, fin.not_found, totals.1, totals.2, fin.debugMatches⟩))

/-! ## `app/api/routes.py` and `app/models/schemas.py` -/

/-- Error surface of the `/v1/estimate` route: HTTP 400 for an empty
names list, or a propagated retrieval failure (which FastAPI would turn
into a 500). -/
inductive RouteError (ε : Type) where
  | invalidInput
  | retrieval (e : ε)

/-- The fields of `EstimateRequest` from `app/models/schemas.py`. -/
structure EstimateRequest where
  names : List Str
  format_report : Bool
  project_code : Option Str
  cabinet_code : Option Str

/-- Pydantic validation of `EstimateRequest.names` (`min_length=1`). -/
def validEstimateRequest (req : EstimateRequest) : Bool :=
  decide (1 ≤ req.names.length)

/-- Model of `estimate_endpoint`: reject an empty names list with HTTP
400 before calling `estimate`, otherwise run the engine.  The
report/LLM formatting is an external collaborator and does not affect
the outcome data. -/
def estimate_endpoint {ε : Type} (env : Env ε) (req : EstimateRequest) :
    Except (RouteError ε) EstimateOutcome :=
  if req.names = [] then .error .invalidInput
  else
    match estimate env req.names req.project_code req.cabinet_code with
    | .error e => .error (.retrieval e)
    | .ok out => .ok out

/-- The running invariant of the per-input loop: every found item's
article is truthy and recorded in the global claimed set, and found
items carry pairwise distinct articles. -/
def stateInv (s : LoopState) : Prop :=
  (∀ it ∈ s.found_items,
    ∃ a, it.article = some a ∧ a ≠ [] ∧ a ∈ s.global_seen_articles) ∧
  s.found_items.Pairwise (fun x y => x.article ≠ y.article)

/-! ### Aggregation (claim C8) -/

/-- Sum of the values of a totals mapping. -/
def sumVals (t : List (Str × Int)) : Int := (t.map Prod.snd).sum

/-- Sum of the time values of a list of found items. -/
def sumTimes (found : List MatchResult) : Int :=
  (found.map (fun it => it.time_per_unit)).sum

/-! ### Concrete instances for counterexamples and witnesses -/

/-- A concrete catalog row used in counterexamples and witnesses. -/
def rowX : Row :=
  ⟨strOf "котел", strOf "котел", some (strOf "A1"), strOf "C1", strOf "P1",
   strOf "T", strOf "S", 30⟩

/-- A concrete environment: one catalog row matching `котел` exactly, no
fuzzy candidates, identity lowercasing, everything a word character. -/
def envC1 : Env Nat :=
  { m := mZero
    st := ⟨true, 70, 30, 1⟩
    low := id
    isW := fun _ => true
    isSp := fun c => c == ' '
    fetch_exact_matches := fun _ _ _ => .ok [rowX]
    fetch_candidates_pg_trgm := fun _ _ _ _ => .ok []
    fetch_candidates_token := fun _ _ _ _ => .ok [] }

/-- The single found item of a run of `envC1` on `котел`. -/
def itemC1 : MatchResult := _row_to_match (strOf "котел") rowX 100

/-- The outcome of `estimate envC1 [котел, котел]`: one found item, an
EMPTY not-found list (the duplicate input is dropped from both lists)
and the totals of the single item. -/
def outC1 : EstimateOutcome :=
  ⟨[itemC1], [], [(strOf "C1", 30)], [(strOf "P1", 30)],
   [⟨strOf "котел", 1, 0⟩, ⟨strOf "котел", 1, 0⟩]⟩

/-- An environment with no catalog data at all. -/
def envW : Env Nat :=
  { m := mZero
    st := ⟨true, 70, 30, 1⟩
    low := id
    isW := fun _ => true
    isSp := fun c => c == ' '
    fetch_exact_matches := fun _ _ _ => .ok []
    fetch_candidates_pg_trgm := fun _ _ _ _ => .ok []
    fetch_candidates_token := fun _ _ _ _ => .ok [] }

/-- The outcome of `estimate envW [абв]`: nothing found, the input in
the not-found list. -/
def outW : EstimateOutcome :=
  ⟨[], [strOf "абв"], [], [], [⟨strOf "абв", 0, 0⟩]⟩

/-- An environment whose exact fetch raises (error code 7). -/
def envErrExact : Env Nat :=
  { envW with fetch_exact_matches := fun _ _ _ => .error 7 }

/-- An environment whose fuzzy pg_trgm fetch raises (error code 9). -/
def envErrFuzzy : Env Nat :=
  { envW with fetch_candidates_pg_trgm := fun _ _ _ _ => .error 9 }

/-- A request with an empty names list. -/
def reqEmpty : EstimateRequest := ⟨[], true, none, none⟩

/-! ## Theorems -/

/-! ### Helper lemmas about `dropWhile` heads -/

/-- Dropping nothing: if the head does not satisfy `p`, `dropWhile p` is
the identity. -/
theorem dropWhile_eq_self_of_head {α : Type} (p : α → Bool) (l : List α)
    (h : ∀ c, l.head? = some c → p c = false) : l.dropWhile p = l := by
  cases l with
  | nil => rfl
  | cons a t =>
    have ha := h a rfl
    simp [List.dropWhile_cons, ha]

/-- The head of `dropWhile p l` does not satisfy `p`. -/
theorem head_dropWhile_false {α : Type} (p : α → Bool) (l : List α) :
    ∀ c, (l.dropWhile p).head? = some c → p c = false := by
  induction l with
  | nil => intro c h; simp at h
  | cons a t ih =>
    intro c h
    by_cases hpa : p a
    · rw [List.dropWhile_cons, if_pos hpa] at h
      exact ih c h
    · rw [List.dropWhile_cons, if_neg hpa] at h
      simp at h
      rw [← h]
      exact Bool.of_not_eq_true hpa

/-- A nonempty prefix has the same head. -/
theorem head_of_prefix {α : Type} {p l : List α} (h : p <+: l) {c : α}
    (hc : p.head? = some c) : l.head? = some c := by
  obtain ⟨t, rfl⟩ := h
  cases p with
  | nil => simp at hc
  | cons a q => simpa using hc

/-- The result of `stripList` is an infix of its argument. -/
theorem stripList_within (isSp : Char → Bool) (l : Str) :
    stripList isSp l <:+: l := by
  unfold stripList
  have h1 : l.dropWhile isSp <:+ l := List.dropWhile_suffix isSp
  have h2 : (l.dropWhile isSp).reverse.dropWhile isSp <:+ (l.dropWhile isSp).reverse :=
    List.dropWhile_suffix isSp
  have h3 : ((l.dropWhile isSp).reverse.dropWhile isSp).reverse <+: l.dropWhile isSp := by
    rw [← List.reverse_suffix]
    simpa using h2
  exact (h3.isInfix).trans h1.isInfix

/-- The head of a `stripList` result is not whitespace. -/
theorem stripList_head_not_sp (isSp : Char → Bool) (l : Str) :
    ∀ c, (stripList isSp l).head? = some c → isSp c = false := by
  intro c hc
  unfold stripList at hc
  set A := l.dropWhile isSp with hA
  have hpre : (A.reverse.dropWhile isSp).reverse <+: A := by
    have h2 : A.reverse.dropWhile isSp <:+ A.reverse := List.dropWhile_suffix isSp
    rw [← List.reverse_suffix]
    simpa using h2
  have : A.head? = some c := head_of_prefix hpre hc
  exact head_dropWhile_false isSp l c this

/-- The last element of a `stripList` result is not whitespace. -/
theorem stripList_getLast_not_sp (isSp : Char → Bool) (l : Str) :
    ∀ c, (stripList isSp l).getLast? = some c → isSp c = false := by
  intro c hc
  unfold stripList at hc
  rw [List.getLast?_reverse] at hc
  exact head_dropWhile_false isSp _ c hc

/-- Characters of a `squashAux` output: the inserted space, or an
original character that is a word or whitespace character. -/
theorem mem_squashAux (isW isSp : Char → Bool) :
    ∀ (l : Str) (flag : Bool), ∀ c ∈ squashAux isW isSp flag l,
      c = ' ' ∨ (c ∈ l ∧ (isW c = true ∨ isSp c = true)) := by
  intro l
  induction l with
  | nil => intro flag c hc; simp [squashAux] at hc
  | cons c rest ih =>
    intro flag d hd
    by_cases hw : (isW c || isSp c) = true
    · rw [squashAux, if_pos hw] at hd
      rcases List.mem_cons.mp hd with rfl | hd2
      · right
        refine ⟨List.mem_cons_self _ _, ?_⟩
        rcases Bool.or_eq_true_iff.mp hw with h | h
        · exact Or.inl h
        · exact Or.inr h
      · rcases ih false d hd2 with h | ⟨hmem, hprop⟩
        · exact Or.inl h
        · exact Or.inr ⟨List.mem_cons_of_mem _ hmem, hprop⟩
    · rw [squashAux, if_neg hw] at hd
      have step : ∀ e ∈ squashAux isW isSp true rest,
          e = ' ' ∨ (e ∈ c :: rest ∧ (isW e = true ∨ isSp e = true)) := by
        intro e he
        rcases ih true e he with h | ⟨hmem, hprop⟩
        · exact Or.inl h
        · exact Or.inr ⟨List.mem_cons_of_mem _ hmem, hprop⟩
      cases flag with
      | true => exact step d (by simpa using hd)
      | false =>
        rcases List.mem_cons.mp (by simpa using hd) with rfl | hd2
        · exact Or.inl rfl
        · exact step d hd2

/-- Characters of a `squashNonWord` output. -/
theorem mem_squashNonWord (isW isSp : Char → Bool) :
    ∀ (l : Str), ∀ c ∈ squashNonWord isW isSp l,
      c = ' ' ∨ (c ∈ l ∧ (isW c = true ∨ isSp c = true)) :=
  fun l => mem_squashAux isW isSp l false

/-- Characters of a `collapseAux` output: the inserted space, or an
original non-whitespace character. -/
theorem mem_collapseAux (isSp : Char → Bool) :
    ∀ (l : Str) (flag : Bool), ∀ c ∈ collapseAux isSp flag l,
      c = ' ' ∨ (c ∈ l ∧ isSp c = false) := by
  intro l
  induction l with
  | nil => intro flag c hc; simp [collapseAux] at hc
  | cons c rest ih =>
    intro flag d hd
    by_cases hsp : isSp c = true
    · rw [collapseAux, if_pos hsp] at hd
      have step : ∀ e ∈ collapseAux isSp true rest,
          e = ' ' ∨ (e ∈ c :: rest ∧ isSp e = false) := by
        intro e he
        rcases ih true e he with h | ⟨hmem, hprop⟩
        · exact Or.inl h
        · exact Or.inr ⟨List.mem_cons_of_mem _ hmem, hprop⟩
      cases flag with
      | true => exact step d (by simpa using hd)
      | false =>
        rcases List.mem_cons.mp (by simpa using hd) with rfl | hd2
        · exact Or.inl rfl
        · exact step d hd2
    · rw [collapseAux, if_neg hsp] at hd
      rcases List.mem_cons.mp hd with rfl | hd2
      · exact Or.inr ⟨List.mem_cons_self _ _, Bool.of_not_eq_true hsp⟩
      · rcases ih false d hd2 with h | ⟨hmem, hprop⟩
        · exact Or.inl h
        · exact Or.inr ⟨List.mem_cons_of_mem _ hmem, hprop⟩

/-- Characters of a `collapseWS` output. -/
theorem mem_collapseWS (isSp : Char → Bool) :
    ∀ (l : Str), ∀ c ∈ collapseWS isSp l,
      c = ' ' ∨ (c ∈ l ∧ isSp c = false) :=
  fun l => mem_collapseAux isSp l false

/-- The head of a `collapseAux` output in the in-whitespace state is not
whitespace. -/
theorem head_collapseAux_true_not_sp (isSp : Char → Bool) :
    ∀ (l : Str), ∀ c, (collapseAux isSp true l).head? = some c →
      isSp c = false := by
  intro l
  induction l with
  | nil => intro c hc; simp [collapseAux] at hc
  | cons a rest ih =>
    intro c hc
    by_cases hsp : isSp a = true
    · rw [collapseAux, if_pos hsp, if_pos rfl] at hc
      exact ih c hc
    · rw [collapseAux, if_neg hsp] at hc
      simp at hc
      rw [← hc]
      exact Bool.of_not_eq_true hsp

/-- A `collapseAux` output never has two adjacent whitespace
characters. -/
theorem chain_collapseAux (isSp : Char → Bool) :
    ∀ (l : Str) (flag : Bool),
      (collapseAux isSp flag l).Chain' (fun a b => ¬(isSp a = true ∧ isSp b = true)) := by
  intro l
  induction l with
  | nil => intro flag; simp [collapseAux]
  | cons c rest ih =>
    intro flag
    by_cases hsp : isSp c = true
    · rw [collapseAux, if_pos hsp]
      cases flag with
      | true => simpa using ih true
      | false =>
        simp only [Bool.false_eq_true, if_false]
        rw [List.chain'_cons']
        refine ⟨?_, ih true⟩
        intro b hb
        have : isSp b = false := head_collapseAux_true_not_sp isSp rest b hb
        simp [this]
    · rw [collapseAux, if_neg hsp]
      rw [List.chain'_cons']
      refine ⟨?_, ih false⟩
      intro b hb
      simp [Bool.of_not_eq_true hsp]

/-- A `collapseWS` output never has two adjacent whitespace characters. -/
theorem chain_collapseWS (isSp : Char → Bool) :
    ∀ (l : Str),
      (collapseWS isSp l).Chain' (fun a b => ¬(isSp a = true ∧ isSp b = true)) :=
  fun l => chain_collapseAux isSp l false

/-- Mapping a function that fixes every element is the identity. -/
theorem map_eq_self {α : Type} (f : α → α) (l : List α)
    (h : ∀ c ∈ l, f c = c) : l.map f = l := by
  induction l with
  | nil => rfl
  | cons a t ih =>
    simp only [List.map_cons, h a (List.mem_cons_self a t),
      ih (fun c hc => h c (List.mem_cons_of_mem a hc))]

/-- On a string whose ends are not whitespace, `stripList` is the
identity. -/
theorem stripList_eq_self (isSp : Char → Bool) (l : Str)
    (h1 : ∀ c, l.head? = some c → isSp c = false)
    (h2 : ∀ c, l.getLast? = some c → isSp c = false) :
    stripList isSp l = l := by
  unfold stripList
  rw [dropWhile_eq_self_of_head _ _ h1]
  rw [dropWhile_eq_self_of_head _ _ (by
    intro c hc
    rw [List.head?_reverse] at hc
    exact h2 c hc)]
  exact List.reverse_reverse l

/-- On a string of word or whitespace characters, `squashAux` is the
identity in every state. -/
theorem squashAux_eq_self (isW isSp : Char → Bool) :
    ∀ (l : Str) (flag : Bool), (∀ c ∈ l, isW c = true ∨ isSp c = true) →
      squashAux isW isSp flag l = l := by
  intro l
  induction l with
  | nil => intro flag h; rw [squashAux]
  | cons c rest ih =>
    intro flag h
    have hc : (isW c || isSp c) = true := by
      rcases h c (List.mem_cons_self c rest) with h1 | h1 <;> simp [h1]
    rw [squashAux, if_pos hc]
    rw [ih false (fun d hd => h d (List.mem_cons_of_mem c hd))]

/-- On a string of word or whitespace characters, `squashNonWord` is the
identity. -/
theorem squashNonWord_eq_self (isW isSp : Char → Bool) (l : Str)
    (h : ∀ c ∈ l, isW c = true ∨ isSp c = true) :
    squashNonWord isW isSp l = l :=
  squashAux_eq_self isW isSp l false h

/-- On a string whose head is not whitespace, `collapseAux` does not
depend on the state flag. -/
theorem collapseAux_flag_irrel (isSp : Char → Bool) (l : Str)
    (h : ∀ c, l.head? = some c → isSp c = false) :
    collapseAux isSp true l = collapseAux isSp false l := by
  cases l with
  | nil => rw [collapseAux, collapseAux]
  | cons a t =>
    have ha := h a rfl
    rw [collapseAux, collapseAux, if_neg (by simp [ha]), if_neg (by simp [ha])]

/-- On a string whose whitespace characters are all the plain space and
never adjacent, `collapseWS` is the identity. -/
theorem collapseWS_eq_self (isSp : Char → Bool) :
    ∀ (l : Str), (∀ c ∈ l, isSp c = true → c = ' ') →
      l.Chain' (fun a b => ¬(isSp a = true ∧ isSp b = true)) →
      collapseWS isSp l = l := by
  intro l
  induction l with
  | nil => intro hsp hch; rw [collapseWS, collapseAux]
  | cons c rest ih =>
    intro hsp hch
    rw [collapseWS] at ih ⊢
    obtain ⟨hhead, htail⟩ := List.chain'_cons'.mp hch
    have ihrest : collapseAux isSp false rest = rest :=
      ih (fun d hd h2 => hsp d (List.mem_cons_of_mem c hd) h2) htail
    by_cases hc : isSp c = true
    · have hcsp : c = ' ' := hsp c (List.mem_cons_self c rest) hc
      have hflag : collapseAux isSp true rest = collapseAux isSp false rest := by
        apply collapseAux_flag_irrel
        intro d hd
        have := hhead d hd
        by_contra hcon
        exact this ⟨hc, Bool.not_eq_false _ |>.mp hcon⟩
      rw [collapseAux, if_pos hc]
      simp only [Bool.false_eq_true, if_false]
      rw [hflag, ihrest, hcsp]
    · rw [collapseAux, if_neg hc, ihrest]

/-- A string of the `goodStr` shape is a fixed point of
`normalize_text`. -/
theorem normalize_eq_self_of_goodStr (low : Char → Char) (isW isSp : Char → Bool)
    (l : Str) (hg : goodStr low isW isSp l) :
    normalize_text low isW isSp l = l := by
  obtain ⟨hmem, hch, hhead, hlast⟩ := hg
  have h1 : stripList isSp l = l := stripList_eq_self isSp l hhead hlast
  have h2 : l.map low = l := map_eq_self _ _ (fun c hc => (hmem c hc).2.1)
  have h3 : l.map yoFold = l := by
    apply map_eq_self
    intro c hc
    simp [yoFold, (hmem c hc).2.2]
  have h4 : squashNonWord isW isSp l = l := by
    apply squashNonWord_eq_self
    intro c hc
    have := (hmem c hc).1
    by_cases hsp : isSp c = true
    · exact Or.inr hsp
    · left
      simpa [hsp] using this
  have h5 : collapseWS isSp l = l := by
    apply collapseWS_eq_self isSp l _ hch
    intro c hc hspc
    have := (hmem c hc).1
    simpa [hspc] using this
  rw [normalize_text, h1, h2, h3, h4, h5, h1]

/-- The output of `normalize_text` always has the `goodStr` shape,
provided lowercasing is idempotent, fixes `е` and the space, and the
space counts as whitespace. -/
theorem goodStr_normalize (low : Char → Char) (isW isSp : Char → Bool)
    (hlow : ∀ c, low (low c) = low c) (hye : low 'е' = 'е')
    (hspl : low ' ' = ' ') (hsp2 : isSp ' ' = true) (s : Str) :
    goodStr low isW isSp (normalize_text low isW isSp s) := by
  have hgoodsp : goodChar low isW isSp ' ' := by
    refine ⟨?_, hspl, by decide⟩
    rw [if_pos hsp2]
  have ht3mem : ∀ c ∈ ((stripList isSp s).map low).map yoFold,
      low c = c ∧ c ≠ 'ё' := by
    intro c hc
    simp only [List.mem_map] at hc
    obtain ⟨b, ⟨a, ha, rfl⟩, rfl⟩ := hc
    by_cases h : low a = 'ё'
    · rw [yoFold, if_pos h]
      exact ⟨hye, by decide⟩
    · rw [yoFold, if_neg h]
      exact ⟨hlow a, h⟩
  refine ⟨?_, ?_, stripList_head_not_sp isSp _, stripList_getLast_not_sp isSp _⟩
  · intro c hc
    have hc5 : c ∈ collapseWS isSp (squashNonWord isW isSp
        (((stripList isSp s).map low).map yoFold)) :=
      (stripList_within isSp _).sublist.subset hc
    rcases mem_collapseWS isSp _ c hc5 with rfl | ⟨hc4, hcsp⟩
    · exact hgoodsp
    · rcases mem_squashNonWord isW isSp _ c hc4 with rfl | ⟨hc3, hprop⟩
      · rw [hsp2] at hcsp; cases hcsp
      · have hW : isW c = true := by
          rcases hprop with h | h
          · exact h
          · rw [h] at hcsp; cases hcsp
        obtain ⟨hfix, hne⟩ := ht3mem c hc3
        exact ⟨by rw [if_neg (by simp [hcsp])]; exact hW, hfix, hne⟩
  · exact List.Chain'.infix (chain_collapseWS isSp _) (stripList_within isSp _)

/-- C7: normalization is idempotent.  For every string `s`,
`normalize_text (normalize_text s) = normalize_text s`, given that the
ambient lowercasing function is idempotent and fixes `е` and the space
character, and that the space counts as whitespace (all true of the
Python runtime's `str.lower` / `\s`). -/
theorem normalize_text_idempotent (low : Char → Char) (isW isSp : Char → Bool)
    (hlow : ∀ c, low (low c) = low c) (hye : low 'е' = 'е')
    (hspl : low ' ' = ' ') (hsp2 : isSp ' ' = true) (s : Str) :
    normalize_text low isW isSp (normalize_text low isW isSp s) =
      normalize_text low isW isSp s :=
  normalize_eq_self_of_goodStr low isW isSp _
    (goodStr_normalize low isW isSp hlow hye hspl hsp2 s)

/-- Witness for C7: the idempotence theorem applied at a concrete input
with concrete character classifiers. -/
theorem normalize_text_idempotent_witness :
    normalize_text id Char.isAlphanum (fun c => c == ' ')
        (normalize_text id Char.isAlphanum (fun c => c == ' ') (strOf " Щит,  упр!! ")) =
      normalize_text id Char.isAlphanum (fun c => c == ' ') (strOf " Щит,  упр!! ") :=
  normalize_text_idempotent id Char.isAlphanum (fun c => c == ' ')
    (fun _ => rfl) rfl rfl (by decide) (strOf " Щит,  упр!! ")

/-- A fold preserves any invariant preserved by each step. -/
theorem foldl_invariant {α β : Type} (P : β → Prop) (f : β → α → β)
    (l : List α) (init : β) (h0 : P init)
    (hstep : ∀ acc a, a ∈ l → P acc → P (f acc a)) : P (l.foldl f init) := by
  induction l generalizing init with
  | nil => exact h0
  | cons a t ih =>
    exact ih (f init a) (hstep init a (List.mem_cons_self a t) h0)
      (fun acc b hb hacc => hstep acc b (List.mem_cons_of_mem a hb) hacc)

/-- C3 counterexample: for the query `"кот кот"`, expansion produces the
variant `"котенок котенок"`, in which BOTH occurrences of the token
`кот` were substituted simultaneously — it is not obtainable by
replacing exactly one token, contradicting the claim. -/
theorem expand_single_subst_counterexample :
    strOf "котенок котенок" ∈
        _expand_query_with_synonyms (fun c => c == ' ') (strOf "кот кот")
      ∧ strOf "котенок котенок" ≠ strOf "кот кот"
      ∧ specSingleSubstB (fun c => c == ' ') (strOf "кот кот")
          (strOf "котенок котенок") = false :=
  ⟨by decide, by decide, by decide⟩

/-- C3 amended: expansion always contains the query itself, and every
other variant is `query.replace(token, synonym)` for some whitespace
token of the query that is a synonym-dictionary key and some synonym of
it — a global substring replacement of every occurrence of that token's
character sequence (also inside larger tokens), not a single-token
substitution. -/
theorem expand_characterization (isSp : Char → Bool) (q : Str) :
    q ∈ _expand_query_with_synonyms isSp q ∧
    ∀ v ∈ _expand_query_with_synonyms isSp q,
      v = q ∨ ∃ t syns syn, t ∈ splitWS isSp q ∧
        lookupSyn SYNONYMS_DICT t = some syns ∧ syn ∈ syns ∧
        v = replaceAll t syn q := by
  have main := foldl_invariant
    (fun qs : List Str => q ∈ qs ∧
      ∀ v ∈ qs, v = q ∨ ∃ t syns syn, t ∈ splitWS isSp q ∧
        lookupSyn SYNONYMS_DICT t = some syns ∧ syn ∈ syns ∧
        v = replaceAll t syn q)
    (fun queries token =>
      match lookupSyn SYNONYMS_DICT token with
      | none => queries
      | some syns =>
        syns.foldl
          (fun qs syn =>
            let expanded := replaceAll token syn q
            if expanded ∈ qs then qs else qs ++ [expanded])
          queries)
    (splitWS isSp q) [q]
    (by
      refine ⟨List.mem_cons_self q [], ?_⟩
      intro v hv
      rcases List.mem_cons.mp hv with rfl | hv2
      · exact Or.inl rfl
      · simp at hv2)
    (by
      intro acc t ht hacc
      cases hsyn : lookupSyn SYNONYMS_DICT t with
      | none => simpa [hsyn] using hacc
      | some syns =>
        simp only [hsyn]
        apply foldl_invariant
          (fun qs : List Str => q ∈ qs ∧
            ∀ v ∈ qs, v = q ∨ ∃ t syns syn, t ∈ splitWS isSp q ∧
              lookupSyn SYNONYMS_DICT t = some syns ∧ syn ∈ syns ∧
              v = replaceAll t syn q)
          _ syns acc hacc
        intro qs syn hsynmem hqs
        by_cases hin : replaceAll t syn q ∈ qs
        · simpa [hin] using hqs
        · simp only [hin, if_neg, ite_false]
          refine ⟨List.mem_append_left _ hqs.1, ?_⟩
          intro v hv
          rcases List.mem_append.mp hv with hv1 | hv2
          · exact hqs.2 v hv1
          · right
            refine ⟨t, syns, syn, ht, hsyn, hsynmem, ?_⟩
            simpa using hv2)
  exact main

/-- Witness for the amended C3 theorem at a concrete query. -/
theorem expand_characterization_witness :
    strOf "кот" ∈ _expand_query_with_synonyms (fun c => c == ' ') (strOf "кот") ∧
    (strOf "котик" = strOf "кот" ∨
      ∃ t syns syn, t ∈ splitWS (fun c => c == ' ') (strOf "кот") ∧
        lookupSyn SYNONYMS_DICT t = some syns ∧ syn ∈ syns ∧
        strOf "котик" = replaceAll t syn (strOf "кот")) :=
  ⟨(expand_characterization (fun c => c == ' ') (strOf "кот")).1,
   (expand_characterization (fun c => c == ' ') (strOf "кот")).2
     (strOf "котик") (by decide)⟩

/-- On a descending-sorted list, the scan loop is filter-then-take. -/
theorem pickLoop_eq (minS maxR : Nat) :
    ∀ (l : List (Nat × Row)) (k : Nat),
      l.Sorted scoreGE → k < maxR →
      pickLoop minS maxR l k =
        (l.filter (fun p => decide (minS ≤ p.1))).take (maxR - k) := by
  intro l
  induction l with
  | nil => intro k hs hk; rw [pickLoop]; simp
  | cons p rest ih =>
    intro k hs hk
    obtain ⟨s, c⟩ := p
    rw [List.sorted_cons] at hs
    by_cases hlow : s < minS
    · have hall : rest.filter (fun p => decide (minS ≤ p.1)) = [] := by
        rw [List.filter_eq_nil_iff]
        intro a ha
        have hle : a.1 ≤ s := hs.1 a ha
        simp only [decide_eq_true_eq]
        omega
      rw [pickLoop, if_pos hlow]
      rw [List.filter_cons_of_neg (by simp only [decide_eq_true_eq]; omega), hall]
      simp
    · have hsge : minS ≤ s := Nat.le_of_not_lt hlow
      rw [pickLoop, if_neg hlow]
      rw [List.filter_cons_of_pos (by simp only [decide_eq_true_eq]; exact hsge)]
      by_cases hmaxk : maxR ≤ k + 1
      · have h1 : maxR - k = 1 := by omega
        rw [if_pos hmaxk, h1]
        simp
      · rw [if_neg hmaxk]
        rw [ih (k + 1) hs.2 (by omega)]
        have h2 : maxR - k = (maxR - (k + 1)) + 1 := by omega
        rw [h2, List.take_succ_cons]

/-- C6: threshold boundary of the ranker.  With a positive result limit,
`pick_best_matches` is exactly "keep the ranked candidates scoring at
least `fuzzy_min_score`, truncated to `max_results`"; consequently every
returned candidate scores at least the threshold (so a score of
`fuzzy_min_score - 1` or lower never appears), a candidate scoring
exactly the threshold is kept subject only to truncation, and when no
ranked candidate clears the threshold the result is the empty list. -/
theorem pick_best_matches_threshold (m : Metrics) (isSp : Char → Bool)
    (fuzzy_min_score : Nat) (q : Str) (cands : List Row) (maxR : Nat)
    (hmax : 1 ≤ maxR) :
    pick_best_matches m isSp fuzzy_min_score q cands maxR =
      ((rank_candidates m isSp q cands).filter
        (fun p => decide (fuzzy_min_score ≤ p.1))).take maxR
    ∧ (∀ p ∈ pick_best_matches m isSp fuzzy_min_score q cands maxR,
        fuzzy_min_score ≤ p.1)
    ∧ ((∀ p ∈ rank_candidates m isSp q cands, p.1 < fuzzy_min_score) →
        pick_best_matches m isSp fuzzy_min_score q cands maxR = []) := by
  have hsorted : (rank_candidates m isSp q cands).Sorted scoreGE := by
    rw [rank_candidates]
    exact List.sorted_insertionSort scoreGE _
  have heq :
      pick_best_matches m isSp fuzzy_min_score q cands maxR =
        ((rank_candidates m isSp q cands).filter
          (fun p => decide (fuzzy_min_score ≤ p.1))).take maxR := by
    rw [pick_best_matches, pickLoop_eq fuzzy_min_score maxR _ 0 hsorted (by omega),
      Nat.sub_zero]
  refine ⟨heq, ?_, ?_⟩
  · intro p hp
    rw [heq] at hp
    have hp2 := List.mem_of_mem_take hp
    exact of_decide_eq_true (List.mem_filter.mp hp2).2
  · intro hall
    rw [heq]
    have : (rank_candidates m isSp q cands).filter
        (fun p => decide (fuzzy_min_score ≤ p.1)) = [] := by
      rw [List.filter_eq_nil_iff]
      intro a ha
      have := hall a ha
      simp only [decide_eq_true_eq]
      omega
    rw [this]
    simp

/-- Witness for C6 at a concrete instantiation. -/
theorem pick_best_matches_threshold_witness :
    pick_best_matches mZero (fun c => c == ' ') 70 (strOf "щит") [] 1 =
      ((rank_candidates mZero (fun c => c == ' ') (strOf "щит") []).filter
        (fun p => decide (70 ≤ p.1))).take 1 :=
  (pick_best_matches_threshold mZero (fun c => c == ' ') 70 (strOf "щит") [] 1
    (by decide)).1

/-! ### Helper lemmas on the engine -/

/-- Looking up a built group is filtering the fetched rows by
`name_norm` (grouping preserves retrieval order within a group). -/
theorem getGroup_addToGroup :
    ∀ (acc : List (Str × List Row)) (k0 k : Str) (r : Row),
      getGroup (addToGroup acc k0 r) k =
        if k0 = k then getGroup acc k ++ [r] else getGroup acc k := by
  intro acc
  induction acc with
  | nil =>
    intro k0 k r
    by_cases h : k0 = k
    · subst h
      simp [addToGroup, getGroup]
    · simp [addToGroup, getGroup, h]
  | cons p rest ih =>
    intro k0 k r
    obtain ⟨k1, g⟩ := p
    rw [addToGroup]
    by_cases h1 : k1 = k0
    · rw [if_pos h1]
      by_cases h2 : k1 = k
      · have hk0 : k0 = k := h1.symm.trans h2
        rw [if_pos hk0]
        simp only [getGroup]
        rw [List.find?_cons_of_pos _ (by simpa using h2),
          List.find?_cons_of_pos _ (by simpa using h2)]
      · have hk0 : ¬ k0 = k := fun hc => h2 (h1.trans hc)
        rw [if_neg hk0]
        simp only [getGroup]
        rw [List.find?_cons_of_neg _ (by simpa using h2),
          List.find?_cons_of_neg _ (by simpa using h2)]
    · rw [if_neg h1]
      by_cases h2 : k1 = k
      · have hk0 : ¬ k0 = k := fun hc => h1 (h2.trans hc.symm)
        rw [if_neg hk0]
        simp only [getGroup]
        rw [List.find?_cons_of_pos _ (by simpa using h2),
          List.find?_cons_of_pos _ (by simpa using h2)]
      · simp only [getGroup]
        rw [List.find?_cons_of_neg _ (by simpa using h2),
          List.find?_cons_of_neg _ (by simpa using h2)]
        have h3 := ih k0 k r
        simp only [getGroup] at h3
        exact h3

/-- `exact_by_norm.get(norm)` equals filtering the fetched rows. -/
theorem getGroup_buildGroups (rows : List Row) (k : Str) :
    getGroup (buildGroups rows) k = rows.filter (fun r => r.name_norm == k) := by
  suffices h : ∀ acc,
      getGroup (rows.foldl (fun acc r => addToGroup acc r.name_norm r) acc) k
        = getGroup acc k ++ rows.filter (fun r => r.name_norm == k) by
    have h2 := h []
    rw [buildGroups, h2]
    simp [getGroup]
  induction rows with
  | nil => intro acc; simp
  | cons r rest ih =>
    intro acc
    rw [List.foldl_cons, ih, getGroup_addToGroup]
    by_cases h : r.name_norm = k
    · rw [if_pos h, List.filter_cons_of_pos (by simpa using h)]
      simp
    · rw [if_neg h, List.filter_cons_of_neg (by simpa using h)]

/-- Specification of the exact-branch scan: an accepted row is one of
the scanned rows, its article is truthy and unclaimed. -/
theorem acceptFirstExact_spec :
    ∀ (rows : List Row) (seen : List Str) (r : Row) (a : Str),
      acceptFirstExact rows seen = some (r, a) →
      r ∈ rows ∧ r.article = some a ∧ a ≠ [] ∧ a ∉ seen := by
  intro rows
  induction rows with
  | nil => intro seen r a h; simp [acceptFirstExact] at h
  | cons r0 rest ih =>
    intro seen r a h
    rw [acceptFirstExact] at h
    split at h
    · rename_i a0 heq
      split at h
      · rename_i hcond
        injection h with h5
        injection h5 with h6 h7
        subst h6
        subst h7
        exact ⟨List.mem_cons_self _ _, heq, hcond.1, hcond.2⟩
      · obtain ⟨h1, h2, h3, h4⟩ := ih seen r a h
        exact ⟨List.mem_cons_of_mem _ h1, h2, h3, h4⟩
    · obtain ⟨h1, h2, h3, h4⟩ := ih seen r a h
      exact ⟨List.mem_cons_of_mem _ h1, h2, h3, h4⟩

/-- Specification of the fuzzy-branch scan. -/
theorem acceptFirstFuzzy_spec :
    ∀ (best : List (Nat × Row)) (seen : List Str) (sc : Nat) (r : Row) (a : Str),
      acceptFirstFuzzy best seen = some (sc, r, a) →
      (sc, r) ∈ best ∧ r.article = some a ∧ a ≠ [] ∧ a ∉ seen := by
  intro best
  induction best with
  | nil => intro seen sc r a h; simp [acceptFirstFuzzy] at h
  | cons p rest ih =>
    intro seen sc r a h
    obtain ⟨sc0, r0⟩ := p
    rw [acceptFirstFuzzy] at h
    split at h
    · rename_i a0 heq
      split at h
      · rename_i hcond
        injection h with h5
        injection h5 with h6 h7
        injection h7 with h8 h9
        subst h6
        subst h8
        subst h9
        exact ⟨List.mem_cons_self _ _, heq, hcond.1, hcond.2⟩
      · obtain ⟨h1, h2, h3, h4⟩ := ih seen sc r a h
        exact ⟨List.mem_cons_of_mem _ h1, h2, h3, h4⟩
    · obtain ⟨h1, h2, h3, h4⟩ := ih seen sc r a h
      exact ⟨List.mem_cons_of_mem _ h1, h2, h3, h4⟩

/-- Members of `addSet`. -/
theorem mem_addSet {s : List Str} {a b : Str} (h : b ∈ addSet s a) :
    b ∈ s ∨ b = a := by
  rw [addSet] at h
  by_cases hc : a ∈ s
  · rw [if_pos hc] at h
    exact Or.inl h
  · rw [if_neg hc] at h
    rcases List.mem_append.mp h with h1 | h1
    · exact Or.inl h1
    · simp at h1
      exact Or.inr h1

/-- `addSet` never removes elements. -/
theorem subset_addSet (s : List Str) (a : Str) : s ⊆ addSet s a := by
  rw [addSet]
  by_cases hc : a ∈ s
  · rw [if_pos hc]
    exact List.Subset.refl s
  · rw [if_neg hc]
    exact List.subset_append_left s [a]

/-- The added element belongs to `addSet`. -/
theorem mem_addSet_self (s : List Str) (a : Str) : a ∈ addSet s a := by
  rw [addSet]
  by_cases hc : a ∈ s
  · rw [if_pos hc]; exact hc
  · rw [if_neg hc]
    exact List.mem_append_right s (List.mem_cons_self a [])

/-- Claiming an unclaimed truthy article preserves the invariant. -/
theorem claim_update_inv (s1 : LoopState) (ui : Str) (r : Row) (sc : Nat) (a : Str)
    (hinv : stateInv s1) (hart : r.article = some a) (hne : a ≠ [])
    (hnot : a ∉ s1.global_seen_articles) :
    stateInv { s1 with
      global_seen_articles := addSet s1.global_seen_articles a
      seen_per_input := addSeenPI s1.seen_per_input ui a
      found_items := s1.found_items ++ [_row_to_match ui r sc] } := by
  obtain ⟨h1, h2⟩ := hinv
  constructor
  · intro it hit
    rcases List.mem_append.mp hit with hmem | hmem
    · obtain ⟨a2, ha2, hne2, hseen2⟩ := h1 it hmem
      exact ⟨a2, ha2, hne2, subset_addSet _ _ hseen2⟩
    · simp at hmem
      subst hmem
      exact ⟨a, hart, hne, mem_addSet_self _ _⟩
  · rw [List.pairwise_append]
    refine ⟨h2, List.pairwise_singleton _ _, ?_⟩
    intro x hx y hy
    simp at hy
    subst hy
    obtain ⟨a2, ha2, hne2, hseen2⟩ := h1 x hx
    intro hcontra
    rw [ha2, show (_row_to_match ui r sc).article = r.article from rfl, hart] at hcontra
    injection hcontra with h3
    subst h3
    exact hnot hseen2

/-- The exact branch preserves the invariant. -/
theorem processExactBranch_inv (s : LoopState) (ui : Str) (rows : List Row)
    (h : stateInv s) : stateInv (processExactBranch s ui rows) := by
  simp only [processExactBranch]
  split
  · rename_i r a hacc
    obtain ⟨hmem, hart, hne, hnot⟩ := acceptFirstExact_spec _ _ _ _ hacc
    exact claim_update_inv _ ui r 100 a h hart hne hnot
  · exact h

/-- The fuzzy branch preserves the invariant. -/
theorem processFuzzyBest_inv (s : LoopState) (ui : Str) (best : List (Nat × Row))
    (h : stateInv s) : stateInv (processFuzzyBest s ui best) := by
  simp only [processFuzzyBest]
  split
  · exact h
  · split
    · rename_i sc r a hacc
      obtain ⟨hmem, hart, hne, hnot⟩ := acceptFirstFuzzy_spec _ _ _ _ _ hacc
      exact claim_update_inv _ ui r sc a h hart hne hnot
    · exact h

/-- One loop step preserves the invariant. -/
theorem processInput_inv {ε : Type} (env : Env ε) (gr : List (Str × List Row))
    (pc cc : Option Str) (s : LoopState) (ui n : Str) (s2 : LoopState)
    (h : processInput env gr pc cc s ui n = .ok s2) (hinv : stateInv s) :
    stateInv s2 := by
  rw [processInput] at h
  split at h
  · injection h with h2
    subst h2
    exact processExactBranch_inv _ _ _ hinv
  · cases hf : fuzzyFetchFor env pc cc n with
    | error e => rw [hf] at h; simp [Except.map] at h
    | ok cands =>
      rw [hf] at h
      simp only [Except.map] at h
      injection h with h2
      subst h2
      exact processFuzzyBest_inv _ _ _ hinv

/-- The whole loop preserves the invariant. -/
theorem processAll_inv {ε : Type} (env : Env ε) (gr : List (Str × List Row))
    (pc cc : Option Str) :
    ∀ (inputs : List (Str × Str)) (s fin : LoopState),
      processAll env gr pc cc inputs s = .ok fin → stateInv s → stateInv fin := by
  intro inputs
  induction inputs with
  | nil =>
    intro s fin h hinv
    rw [processAll] at h
    injection h with h2
    subst h2
    exact hinv
  | cons p rest ih =>
    intro s fin h hinv
    obtain ⟨ui, n⟩ := p
    rw [processAll] at h
    cases hstep : processInput env gr pc cc s ui n with
    | error e => rw [hstep] at h; simp [Except.bind] at h
    | ok s1 =>
      rw [hstep] at h
      simp only [Except.bind] at h
      exact ih s1 fin h (processInput_inv env gr pc cc s ui n s1 hstep hinv)

/-- Decomposition of a successful `estimate` run: the exact fetch
succeeded, the loop succeeded, and the outcome's fields come from the
final loop state. -/
theorem estimate_ok_spec {ε : Type} (env : Env ε) (names : List Str)
    (pc cc : Option Str) (out : EstimateOutcome)
    (h : estimate env names pc cc = .ok out) :
    ∃ exact_rows fin,
      env.fetch_exact_matches
          (names.map (normalize_text env.low env.isW env.isSp)) pc cc = .ok exact_rows ∧
      processAll env (buildGroups exact_rows) pc cc
        (names.zip (names.map (normalize_text env.low env.isW env.isSp)))
        initState = .ok fin ∧
      out.found_items = fin.found_items ∧ out.not_found = fin.not_found ∧
      out.total_by_cabinet = (aggregate fin.found_items).1 ∧
      out.total_by_project = (aggregate fin.found_items).2 := by
  simp only [estimate] at h
  cases hex : env.fetch_exact_matches
      (names.map (normalize_text env.low env.isW env.isSp)) pc cc with
  | error e => rw [hex] at h; simp [Except.bind] at h
  | ok exact_rows =>
    rw [hex] at h
    simp only [Except.bind] at h
    cases hall : processAll env (buildGroups exact_rows) pc cc
        (names.zip (names.map (normalize_text env.low env.isW env.isSp)))
        initState with
    | error e => rw [hall] at h; simp at h
    | ok fin =>
      rw [hall] at h
      simp only [] at h
      injection h with h2
      subst h2
      exact ⟨exact_rows, fin, rfl, hall, rfl, rfl, rfl, rfl⟩

/-- C2: identifier uniqueness.  In every successful estimation outcome
the found items carry pairwise distinct `article` identifiers, however
many inputs would resolve to the same record (the shared claimed-set
check makes the earliest processed input claim the identifier). -/
theorem estimate_articles_unique {ε : Type} (env : Env ε) (names : List Str)
    (pc cc : Option Str) (out : EstimateOutcome)
    (h : estimate env names pc cc = .ok out) :
    out.found_items.Pairwise (fun x y => x.article ≠ y.article) := by
  obtain ⟨exact_rows, fin, hex, hall, hfound, -⟩ := estimate_ok_spec env names pc cc out h
  rw [hfound]
  exact (processAll_inv env (buildGroups exact_rows) pc cc _ initState fin hall
    ⟨by intro it hit; simp [initState] at hit, by simp [initState]⟩).2

/-- C10: every found item has a truthy identifier.  A successful
estimation outcome never contains a found item whose `article` is NULL
or the empty string — rows with such articles are skipped by both the
exact and the fuzzy acceptance scans. -/
theorem estimate_articles_truthy {ε : Type} (env : Env ε) (names : List Str)
    (pc cc : Option Str) (out : EstimateOutcome)
    (h : estimate env names pc cc = .ok out) :
    ∀ it ∈ out.found_items, ∃ a, it.article = some a ∧ a ≠ [] := by
  obtain ⟨exact_rows, fin, hex, hall, hfound, -⟩ := estimate_ok_spec env names pc cc out h
  rw [hfound]
  intro it hit
  obtain ⟨a, ha, hne, -⟩ :=
    (processAll_inv env (buildGroups exact_rows) pc cc _ initState fin hall
      ⟨by intro it hit; simp [initState] at hit, by simp [initState]⟩).1 it hit
  exact ⟨a, ha, hne⟩

/-- Effect of one loop step on the observable lists: either nothing is
added, or exactly one found item carrying this input, or exactly one
not-found entry for this input. -/
theorem processInput_step_cases {ε : Type} (env : Env ε)
    (gr : List (Str × List Row)) (pc cc : Option Str) (s : LoopState)
    (ui n : Str) (s2 : LoopState)
    (h : processInput env gr pc cc s ui n = .ok s2) :
    (s2.found_items = s.found_items ∧ s2.not_found = s.not_found)
    ∨ (∃ it : MatchResult, it.user_input = ui ∧
        s2.found_items = s.found_items ++ [it] ∧ s2.not_found = s.not_found)
    ∨ (s2.found_items = s.found_items ∧ s2.not_found = s.not_found ++ [ui]) := by
  rw [processInput] at h
  split at h
  · injection h with h2
    subst h2
    simp only [processExactBranch]
    split
    · rename_i r a hacc
      right; left
      exact ⟨_row_to_match ui r 100, rfl, rfl, rfl⟩
    · left; exact ⟨rfl, rfl⟩
  · cases hf : fuzzyFetchFor env pc cc n with
    | error e => rw [hf] at h; simp [Except.map] at h
    | ok cands =>
      rw [hf] at h
      simp only [Except.map] at h
      injection h with h2
      subst h2
      simp only [processFuzzyBest]
      split
      · right; right; exact ⟨rfl, rfl⟩
      · split
        · rename_i sc r a hacc
          right; left
          exact ⟨_row_to_match ui r sc, rfl, rfl, rfl⟩
        · left; exact ⟨rfl, rfl⟩

/-- Growth of the loop state over a run: the found and not-found lists
only grow, and the new entries respect input order with at most one
entry per input (a sublist of the inputs). -/
theorem processAll_growth {ε : Type} (env : Env ε) (gr : List (Str × List Row))
    (pc cc : Option Str) :
    ∀ (inputs : List (Str × Str)) (s fin : LoopState),
      processAll env gr pc cc inputs s = .ok fin →
      ∃ l1 l2, fin.found_items = s.found_items ++ l1 ∧
        fin.not_found = s.not_found ++ l2 ∧
        (l1.map (fun it => it.user_input)).Sublist (inputs.map Prod.fst) ∧
        l2.Sublist (inputs.map Prod.fst) := by
  intro inputs
  induction inputs with
  | nil =>
    intro s fin h
    rw [processAll] at h
    injection h with h2
    subst h2
    exact ⟨[], [], by simp, by simp, by simp, by simp⟩
  | cons p rest ih =>
    intro s fin h
    obtain ⟨ui, n⟩ := p
    rw [processAll] at h
    cases hstep : processInput env gr pc cc s ui n with
    | error e => rw [hstep] at h; simp [Except.bind] at h
    | ok s1 =>
      rw [hstep] at h
      simp only [Except.bind] at h
      obtain ⟨l1, l2, hf, hn, hsub1, hsub2⟩ := ih s1 fin h
      rcases processInput_step_cases env gr pc cc s ui n s1 hstep with
        ⟨hf0, hn0⟩ | ⟨it, hui, hf0, hn0⟩ | ⟨hf0, hn0⟩
      · refine ⟨l1, l2, by rw [hf, hf0], by rw [hn, hn0], ?_, ?_⟩
        · exact hsub1.trans (List.sublist_cons_self _ _)
        · exact hsub2.trans (List.sublist_cons_self _ _)
      · refine ⟨it :: l1, l2, ?_, by rw [hn, hn0], ?_, ?_⟩
        · rw [hf, hf0]; simp
        · simp only [List.map_cons, hui]
          exact hsub1.cons₂ ui
        · exact hsub2.trans (List.sublist_cons_self _ _)
      · refine ⟨l1, ui :: l2, by rw [hf, hf0], ?_, ?_, ?_⟩
        · rw [hn, hn0]; simp
        · exact hsub1.trans (List.sublist_cons_self _ _)
        · exact hsub2.cons₂ ui

/-- If an input reaches the fuzzy path (no exact row) and its ranked
matches are empty, it ends up in the not-found list. -/
theorem processAll_not_found_of_fuzzy_empty {ε : Type} (env : Env ε)
    (gr : List (Str × List Row)) (pc cc : Option Str) :
    ∀ (inputs : List (Str × Str)) (s fin : LoopState),
      processAll env gr pc cc inputs s = .ok fin →
      ∀ ui n, (ui, n) ∈ inputs →
        getGroup gr n = [] →
        (∀ cands, fuzzyFetchFor env pc cc n = .ok cands →
          pick_best_matches env.m env.isSp env.st.fuzzy_min_score n cands
            env.st.max_results_per_input = []) →
        ui ∈ fin.not_found := by
  intro inputs
  induction inputs with
  | nil => intro s fin h ui n hmem; simp at hmem
  | cons p rest ih =>
    intro s fin h ui n hmem hgr hpick
    obtain ⟨ui0, n0⟩ := p
    rw [processAll] at h
    cases hstep : processInput env gr pc cc s ui0 n0 with
    | error e => rw [hstep] at h; simp [Except.bind] at h
    | ok s1 =>
      rw [hstep] at h
      simp only [Except.bind] at h
      rcases List.mem_cons.mp hmem with heq | hmem2
      · injection heq with h1 h2
        subst h1
        subst h2
        rw [processInput, if_neg (by simp [hgr])] at hstep
        cases hf : fuzzyFetchFor env pc cc n with
        | error e => rw [hf] at hstep; simp [Except.map] at hstep
        | ok cands =>
          rw [hf] at hstep
          simp only [Except.map] at hstep
          injection hstep with h3
          obtain ⟨l1, l2, hfin1, hfin2, -, -⟩ :=
            processAll_growth env gr pc cc rest s1 fin h
          rw [hfin2, ← h3, hpick cands hf]
          simp [processFuzzyBest]
      · exact ih s1 fin h ui n hmem2 hgr hpick

/-- A member of a list paired with its image is a member of the zip with
the mapped list. -/
theorem mem_zip_self_map (f : Str → Str) :
    ∀ (names : List Str) (ui : Str), ui ∈ names →
      (ui, f ui) ∈ names.zip (names.map f) := by
  intro names
  induction names with
  | nil => intro ui h; simp at h
  | cons a rest ih =>
    intro ui h
    rcases List.mem_cons.mp h with rfl | h2
    · simp
    · simp only [List.map_cons, List.zip_cons_cons]
      exact List.mem_cons_of_mem _ (ih ui h2)

/-- C1 amended: every accepted match appears in the found list and every
fuzzy-path input with no ranked match above threshold appears in the
not-found list, both preserving original input order with at most one
entry per input; but an input whose exact (or ranked fuzzy) matches all
have an already-claimed or missing identifier appears in NEITHER list —
in particular, of two identical inputs resolving to one identifier, one
yields a found entry and the other is dropped from both lists. -/
theorem estimate_partition {ε : Type} (env : Env ε) (names : List Str)
    (pc cc : Option Str) (out : EstimateOutcome) (exact_rows : List Row)
    (hok : estimate env names pc cc = .ok out)
    (hex : env.fetch_exact_matches
      (names.map (normalize_text env.low env.isW env.isSp)) pc cc = .ok exact_rows) :
    (out.found_items.map (fun it => it.user_input)).Sublist names
    ∧ out.not_found.Sublist names
    ∧ ∀ ui ∈ names,
        getGroup (buildGroups exact_rows)
          (normalize_text env.low env.isW env.isSp ui) = [] →
        (∀ cands, fuzzyFetchFor env pc cc
            (normalize_text env.low env.isW env.isSp ui) = .ok cands →
          pick_best_matches env.m env.isSp env.st.fuzzy_min_score
            (normalize_text env.low env.isW env.isSp ui) cands
            env.st.max_results_per_input = []) →
        ui ∈ out.not_found := by
  obtain ⟨er2, fin, hex2, hall, hfound, hnf, -⟩ :=
    estimate_ok_spec env names pc cc out hok
  rw [hex] at hex2
  injection hex2 with her
  subst her
  have hfst : (names.zip
      (names.map (normalize_text env.low env.isW env.isSp))).map Prod.fst = names :=
    List.map_fst_zip _ _ (by simp)
  obtain ⟨l1, l2, hf1, hf2, hs1, hs2⟩ :=
    processAll_growth env (buildGroups exact_rows) pc cc _ initState fin hall
  refine ⟨?_, ?_, ?_⟩
  · rw [hfound, hf1]
    simp only [initState, List.nil_append]
    rwa [hfst] at hs1
  · rw [hnf, hf2]
    simp only [initState, List.nil_append]
    rwa [hfst] at hs2
  · intro ui hui hgr hpick
    have hmem := mem_zip_self_map (normalize_text env.low env.isW env.isSp) names ui hui
    rw [hnf]
    exact processAll_not_found_of_fuzzy_empty env (buildGroups exact_rows) pc cc
      _ initState fin hall ui _ hmem hgr hpick

/-- C4: exact precedence.  When the normalized input has at least one
exact row, the per-input step returns via the exact branch for EVERY
choice of fuzzy retrieval functions (so no fuzzy retrieval or ranking
can influence it, i.e. none is performed), it cannot fail, and its debug
entry records zero fuzzy matches — even when no exact row is accepted
because all their identifiers are already claimed. -/
theorem exact_precedence {ε : Type} (env : Env ε) (gr : List (Str × List Row))
    (pc cc : Option Str) (s : LoopState) (ui n : Str)
    (h : getGroup gr n ≠ []) :
    (∀ fzT fzK,
      processInput
        { env with fetch_candidates_pg_trgm := fzT, fetch_candidates_token := fzK }
        gr pc cc s ui n
      = .ok (processExactBranch
          { s with seen_per_input := setdefaultSeen s.seen_per_input ui }
          ui (getGroup gr n)))
    ∧ (processExactBranch
        { s with seen_per_input := setdefaultSeen s.seen_per_input ui }
        ui (getGroup gr n)).debugMatches
      = s.debugMatches ++ [⟨ui, (getGroup gr n).length, 0⟩] := by
  constructor
  · intro fzT fzK
    rw [processInput, if_pos h]
  · simp only [processExactBranch]
    split
    · rfl
    · rfl

/-- Appending input lists sequences the loop monadically. -/
theorem processAll_append {ε : Type} (env : Env ε) (gr : List (Str × List Row))
    (pc cc : Option Str) :
    ∀ (l1 l2 : List (Str × Str)) (s : LoopState),
      processAll env gr pc cc (l1 ++ l2) s =
        (processAll env gr pc cc l1 s).bind
          (fun s1 => processAll env gr pc cc l2 s1) := by
  intro l1
  induction l1 with
  | nil => intro l2 s; simp [processAll, Except.bind]
  | cons p rest ih =>
    intro l2 s
    obtain ⟨ui, n⟩ := p
    rw [List.cons_append, processAll, processAll]
    cases hstep : processInput env gr pc cc s ui n with
    | error e => simp [Except.bind]
    | ok s1 =>
      simp only [Except.bind]
      exact ih l2 s1

/-- C5: a retrieval failure aborts the whole call.  If the exact fetch
raises, `estimate` returns exactly that error; if the loop reaches an
input whose fuzzy retrieval raises, `estimate` returns exactly that
error — in both cases no outcome object is built and no later input is
processed. -/
theorem retrieval_failure_aborts {ε : Type} (env : Env ε) (names : List Str)
    (pc cc : Option Str) (e : ε) :
    (env.fetch_exact_matches
        (names.map (normalize_text env.low env.isW env.isSp)) pc cc = .error e →
      estimate env names pc cc = .error e)
    ∧ (∀ (pre : List Str) (ui : Str) (rest : List Str) (exact_rows : List Row)
        (s : LoopState),
        names = pre ++ ui :: rest →
        env.fetch_exact_matches
          (names.map (normalize_text env.low env.isW env.isSp)) pc cc = .ok exact_rows →
        processAll env (buildGroups exact_rows) pc cc
          (pre.zip (pre.map (normalize_text env.low env.isW env.isSp)))
          initState = .ok s →
        getGroup (buildGroups exact_rows)
          (normalize_text env.low env.isW env.isSp ui) = [] →
        fuzzyFetchFor env pc cc
          (normalize_text env.low env.isW env.isSp ui) = .error e →
        estimate env names pc cc = .error e) := by
  constructor
  · intro hex
    simp only [estimate]
    rw [hex]
    rfl
  · intro pre ui rest exact_rows s hnames hex hpre hgr hf
    simp only [estimate]
    rw [hex]
    simp only [Except.bind]
    subst hnames
    have hzip : (pre ++ ui :: rest).zip
        ((pre ++ ui :: rest).map (normalize_text env.low env.isW env.isSp))
        = pre.zip (pre.map (normalize_text env.low env.isW env.isSp)) ++
          (ui, normalize_text env.low env.isW env.isSp ui) ::
            rest.zip (rest.map (normalize_text env.low env.isW env.isSp)) := by
      rw [List.map_append, List.zip_append (by simp)]
      simp
    rw [hzip, processAll_append, hpre]
    simp only [Except.bind]
    rw [processAll, processInput, if_neg (by simp [hgr]), hf]
    rfl

/-- C9: an empty names list is rejected as InvalidInput (HTTP 400)
before any retrieval is attempted — the endpoint returns the rejection
for EVERY choice of retrieval functions, so no lookup can influence it
(none is performed); the pydantic schema also rejects such a request. -/
theorem empty_input_rejected {ε : Type} (env : Env ε) (req : EstimateRequest)
    (h : req.names = []) :
    (∀ (ef : List Str → Option Str → Option Str → Except ε (List Row))
        (fzT : Str → Nat → Option Str → Option Str → Except ε (List Row))
        (fzK : List Str → Nat → Option Str → Option Str → Except ε (List Row)),
      estimate_endpoint
        { env with fetch_exact_matches := ef,
                   fetch_candidates_pg_trgm := fzT,
                   fetch_candidates_token := fzK } req = .error .invalidInput)
    ∧ validEstimateRequest req = false := by
  constructor
  · intro ef fzT fzK
    rw [estimate_endpoint, if_pos h]
  · rw [validEstimateRequest, h]
    rfl

/-- One `+=` step adds its value to the total sum. -/
theorem sumVals_addTotal : ∀ (t : List (Str × Int)) (k : Str) (v : Int),
    sumVals (addTotal t k v) = sumVals t + v := by
  intro t
  induction t with
  | nil => intro k v; simp [addTotal, sumVals]
  | cons p rest ih =>
    intro k v
    obtain ⟨k0, v0⟩ := p
    rw [addTotal]
    by_cases h : k0 = k
    · rw [if_pos h]
      simp only [sumVals, List.map_cons, List.sum_cons]
      ring
    · rw [if_neg h]
      simp only [sumVals, List.map_cons, List.sum_cons]
      have := ih k v
      simp only [sumVals] at this
      rw [this]
      ring

/-- One `+=` step introduces at most the written key. -/
theorem keys_addTotal : ∀ (t : List (Str × Int)) (k : Str) (v : Int) (k2 : Str),
    k2 ∈ (addTotal t k v).map Prod.fst → k2 ∈ t.map Prod.fst ∨ k2 = k := by
  intro t
  induction t with
  | nil =>
    intro k v k2 h
    simp [addTotal] at h
    exact Or.inr h
  | cons p rest ih =>
    intro k v k2 h
    obtain ⟨k0, v0⟩ := p
    rw [addTotal] at h
    by_cases hk : k0 = k
    · rw [if_pos hk] at h
      simp only [List.map_cons, List.mem_cons] at h
      rcases h with rfl | h2
      · exact Or.inl (by simp)
      · exact Or.inl (by simp [h2])
    · rw [if_neg hk] at h
      simp only [List.map_cons, List.mem_cons] at h
      rcases h with rfl | h2
      · exact Or.inl (by simp)
      · rcases ih k v k2 h2 with h3 | h3
        · exact Or.inl (by simp [h3])
        · exact Or.inr h3

/-- The totals fold sums exactly the accumulated time values. -/
theorem sumVals_totals_foldl (f : MatchResult → Str) :
    ∀ (found : List MatchResult) (acc : List (Str × Int)),
      sumVals (found.foldl (fun acc it => addTotal acc (f it) it.time_per_unit) acc)
        = sumVals acc + sumTimes found := by
  intro found
  induction found with
  | nil => intro acc; simp [sumTimes]
  | cons it rest ih =>
    intro acc
    rw [List.foldl_cons, ih, sumVals_addTotal]
    simp only [sumTimes, List.map_cons, List.sum_cons]
    ring

/-- The totals fold only ever writes keys drawn from the items. -/
theorem keys_totals_foldl (f : MatchResult → Str) :
    ∀ (found : List MatchResult) (acc : List (Str × Int)) (k : Str),
      k ∈ (found.foldl (fun acc it => addTotal acc (f it) it.time_per_unit) acc).map
        Prod.fst →
      k ∈ acc.map Prod.fst ∨ ∃ it ∈ found, f it = k := by
  intro found
  induction found with
  | nil => intro acc k h; exact Or.inl h
  | cons it rest ih =>
    intro acc k h
    rw [List.foldl_cons] at h
    rcases ih (addTotal acc (f it) it.time_per_unit) k h with h2 | ⟨it2, h3, h4⟩
    · rcases keys_addTotal acc (f it) it.time_per_unit k h2 with h5 | h5
      · exact Or.inl h5
      · exact Or.inr ⟨it, List.mem_cons_self _ _, h5.symm⟩
    · exact Or.inr ⟨it2, List.mem_cons_of_mem _ h3, h4⟩

/-- C8: aggregation correctness.  For every list of found items, the
cabinet totals and the project totals both sum to the sum of the items'
time values, and each mapping contains only keys occurring in at least
one found item. -/
theorem aggregate_totals (found : List MatchResult) :
    sumVals (aggregate found).1 = sumTimes found
    ∧ sumVals (aggregate found).2 = sumTimes found
    ∧ (∀ k ∈ (aggregate found).1.map Prod.fst, ∃ it ∈ found, it.cabinet = k)
    ∧ (∀ k ∈ (aggregate found).2.map Prod.fst, ∃ it ∈ found, it.project = k) := by
  refine ⟨?_, ?_, ?_, ?_⟩
  · have h := sumVals_totals_foldl (fun it => it.cabinet) found []
    simp only [aggregate]
    simpa [sumVals] using h
  · have h := sumVals_totals_foldl (fun it => it.project) found []
    simp only [aggregate]
    simpa [sumVals] using h
  · intro k hk
    simp only [aggregate] at hk
    rcases keys_totals_foldl (fun it => it.cabinet) found [] k hk with h2 | h2
    · simp at h2
    · exact h2
  · intro k hk
    simp only [aggregate] at hk
    rcases keys_totals_foldl (fun it => it.project) found [] k hk with h2 | h2
    · simp at h2
    · exact h2

/-! ### Counterexample and witnesses for the engine claims -/

/-- C1 counterexample: two identical inputs `котел` both resolving to
the one catalog identifier `A1`.  The claim demands exactly one found
entry AND the other input listed in `not_found`; the code produces the
one found entry but an EMPTY `not_found` list — the second input appears
in neither list. -/
theorem estimate_identical_inputs_counterexample :
    estimate envC1 [strOf "котел", strOf "котел"] none none = .ok outC1
    ∧ outC1.found_items.length = 1
    ∧ outC1.not_found = [] :=
  ⟨rfl, rfl, rfl⟩

/-- Witness for the amended C1 theorem at a concrete run in which the
single input legitimately reaches the not-found list. -/
theorem estimate_partition_witness :
    (outW.found_items.map (fun it => it.user_input)).Sublist [strOf "абв"]
    ∧ strOf "абв" ∈ outW.not_found :=
  ⟨(estimate_partition envW [strOf "абв"] none none outW [] rfl rfl).1,
   (estimate_partition envW [strOf "абв"] none none outW [] rfl rfl).2.2
     (strOf "абв") (by decide) (by decide)
     (fun cands hc => by cases hc; rfl)⟩

/-- Witness for C2: the concrete outcome of `envC1` has pairwise
distinct articles. -/
theorem estimate_articles_unique_witness :
    outC1.found_items.Pairwise (fun x y => x.article ≠ y.article) :=
  estimate_articles_unique envC1 [strOf "котел", strOf "котел"] none none outC1 rfl

/-- Witness for C10: the concrete found item of `envC1` carries a
non-empty article. -/
theorem estimate_articles_truthy_witness :
    ∃ a, itemC1.article = some a ∧ a ≠ [] :=
  estimate_articles_truthy envC1 [strOf "котел", strOf "котел"] none none outC1 rfl
    itemC1 (by decide)

/-- Witness for C4: the exact-precedence theorem applied at a concrete
state where the fuzzy fetchers raise — the step still succeeds through
the exact branch. -/
theorem exact_precedence_witness :
    processInput
      { envC1 with fetch_candidates_pg_trgm := fun _ _ _ _ => .error 5,
                   fetch_candidates_token := fun _ _ _ _ => .error 5 }
      (buildGroups [rowX]) none none initState (strOf "котел") (strOf "котел")
      = .ok (processExactBranch
          { initState with
            seen_per_input := setdefaultSeen initState.seen_per_input (strOf "котел") }
          (strOf "котел") (getGroup (buildGroups [rowX]) (strOf "котел")))
    ∧ (processExactBranch
        { initState with
          seen_per_input := setdefaultSeen initState.seen_per_input (strOf "котел") }
        (strOf "котел") (getGroup (buildGroups [rowX]) (strOf "котел"))).debugMatches
      = initState.debugMatches ++
          [⟨strOf "котел", (getGroup (buildGroups [rowX]) (strOf "котел")).length, 0⟩] :=
  ⟨(exact_precedence envC1 (buildGroups [rowX]) none none initState
      (strOf "котел") (strOf "котел") (by decide)).1 _ _,
   (exact_precedence envC1 (buildGroups [rowX]) none none initState
      (strOf "котел") (strOf "котел") (by decide)).2⟩

/-- Witness for C5: a raising exact fetch makes the whole call fail with
error 7; a raising fuzzy fetch (reached on the first input) makes the
whole call fail with error 9. -/
theorem retrieval_failure_aborts_witness :
    estimate envErrExact [strOf "абв"] none none = .error 7
    ∧ estimate envErrFuzzy [strOf "абв"] none none = .error 9 :=
  ⟨(retrieval_failure_aborts envErrExact [strOf "абв"] none none 7).1 rfl,
   (retrieval_failure_aborts envErrFuzzy [strOf "абв"] none none 9).2
     [] (strOf "абв") [] [] initState rfl rfl rfl rfl rfl⟩

/-- Witness for C9: the endpoint rejects the concrete empty request with
InvalidInput even when the retrieval functions are live, and the schema
validation also rejects it. -/
theorem empty_input_rejected_witness :
    estimate_endpoint
      ({ envC1 with fetch_exact_matches := fun _ _ _ => .ok [rowX],
                    fetch_candidates_pg_trgm := fun _ _ _ _ => .ok [],
                    fetch_candidates_token := fun _ _ _ _ => .ok [] } : Env Nat)
      reqEmpty = .error .invalidInput
    ∧ validEstimateRequest reqEmpty = false :=
  ⟨(empty_input_rejected envC1 reqEmpty rfl).1 _ _ _,
   (empty_input_rejected envC1 reqEmpty rfl).2⟩

/-- Witness for C8 at a concrete found list. -/
theorem aggregate_totals_witness :
    sumVals (aggregate [itemC1]).1 = sumTimes [itemC1]
    ∧ (∃ it ∈ [itemC1], it.cabinet = strOf "C1") :=
  ⟨(aggregate_totals [itemC1]).1,
   (aggregate_totals [itemC1]).2.2.1 (strOf "C1") (by decide)⟩
